import Mathlib

/-!
Verification of the marxs optics aperture and detector layer.

This file gives a shallow embedding of `src/marxs/optics/aperture.py`
(flat apertures, circular apertures, multi-aperture dispatch) and, where
the detector implementation is absent from the source tree, models of the
flat-detector pixel grid and the tube-intersection routine taken from the
specification text.  Floating-point arrays are embedded as functions into
`ℝ` (exact real arithmetic); the NumPy random draws are threaded through
explicitly as streams of numbers in `[0, 1)`; NaN sentinels become
`Option`; Python exceptions become `Except` values.
-/

/-- Embedding of `np.clip(x, lo, hi)`: clamp `x` into the interval. -/
def clip (x lo hi : ℝ) : ℝ := min (max x lo) hi

/-- Dot product of two homogeneous 4-vectors, as in `np.dot` on rows of a
photon table against a geometry vector. -/
def dot4 (a b : Fin 4 → ℝ) : ℝ := ∑ i, a i * b i

/-- Dot product of two Euclidean 3-vectors. -/
def dot3 (a b : Fin 3 → ℝ) : ℝ := ∑ i, a i * b i

/-- Embedding of `np.linalg.norm` on a homogeneous 4-vector. -/
noncomputable def norm4 (v : Fin 4 → ℝ) : ℝ := Real.sqrt (dot4 v v)

/-- Embedding of `np.isclose(a, b)` with NumPy's default tolerances
`rtol = 1e-05`, `atol = 1e-08`. -/
def isclose (a b : ℝ) : Prop := |a - b| ≤ 1 / 10 ^ 8 + 1 / 10 ^ 5 * |b|

/-- One row of the photon table.  `pos` and `dir` are homogeneous
4-vectors; `loc_x`/`loc_y` are the element's local-coordinate columns
(absent until an element adds them); `id` is the column written by an
element's own `id_col`; `aperture_id` is the column written by
`MultiAperture`; `extra` stands for all remaining columns of the table. -/
structure Photon where
  pos : Fin 4 → ℝ
  dir : Fin 4 → ℝ
  energy : ℝ
  polarization : ℝ
  probability : ℝ
  loc_x : Option ℝ
  loc_y : Option ℝ
  id : Option ℕ
  aperture_id : Option ℕ
  extra : ℕ → ℝ

/-- The geometry dictionary of a flat optical element: the homogeneous
vectors `center`, `v_y`, `v_z` and the unit normal `e_x`. -/
structure FlatGeometry where
  center : Fin 4 → ℝ
  v_y : Fin 4 → ℝ
  v_z : Fin 4 → ℝ
  e_x : Fin 4 → ℝ

/-- Geometry of a `CircleAperture`: a flat geometry together with the
inner radius `r_inner` and the bounding angles `phi`. -/
structure CircGeometry extends FlatGeometry where
  r_inner : ℝ
  phi : ℝ × ℝ

/-- The exceptions raised by the aperture code: `ValueError`,
`GeometryError` and `NotImplementedError`. -/
inductive ApertureError where
  | valueError : ApertureError
  | geometryError : ApertureError
  | notImplementedError : ApertureError
deriving DecidableEq

/-- The per-photon effect of `FlatAperture.__call__` given the sampled
local coordinates `xyk` for this row: write the local-coordinate columns
(when the geometry has `loc_coos_name`, flag `loc`), write the element id
when requested, set `pos = center + x*v_y + y*v_z`, and multiply the
probability by `clip(dir · (-e_x), 0, 1)`. -/
def flatApertureOne (g : FlatGeometry) (idnum : Option ℕ) (loc : Bool)
    (xyk : ℝ × ℝ) (p : Photon) : Photon :=
  { p with
    loc_x := if loc then some xyk.1 else p.loc_x
    loc_y := if loc then some xyk.2 else p.loc_y
    id := match idnum with
          | some n => some n
          | none => p.id
    pos := fun i => g.center i + xyk.1 * g.v_y i + xyk.2 * g.v_z i
    probability := p.probability * clip (dot4 p.dir (fun i => -(g.e_x i))) 0 1 }

/-- Row-wise application of `flatApertureOne` over the photon batch; the
counter `k` is the absolute row index into the stream `xy` of sampled
local coordinates (the vectorized `generate_local_xy(len(photons))`). -/
def flatApertureList (g : FlatGeometry) (idnum : Option ℕ) (loc : Bool)
    (xy : ℕ → ℝ × ℝ) : List Photon → ℕ → List Photon
  | [], _ => []
  | p :: ps, k => flatApertureOne g idnum loc (xy k) p ::
      flatApertureList g idnum loc xy ps (k + 1)

/-- Embedding of `FlatAperture.__call__` on a photon batch. -/
def flatApertureCall (g : FlatGeometry) (idnum : Option ℕ) (loc : Bool)
    (xy : ℕ → ℝ × ℝ) (photons : List Photon) : List Photon :=
  flatApertureList g idnum loc xy photons 0

/-- Embedding of `FlatAperture.process_photons`, which unconditionally
raises `NotImplementedError`. -/
def flatApertureProcessPhotons (_photons : List Photon) :
    Except ApertureError (List Photon) :=
  Except.error ApertureError.notImplementedError

/-- Embedding of `RectangleAperture.generate_local_xy`: each coordinate is
`np.random.random(n) * 2 - 1`, with `u1`/`u2` the underlying uniform
draws in `[0, 1)`. -/
def rectangleGenerateLocalXY (u1 u2 : ℕ → ℝ) (k : ℕ) : ℝ × ℝ :=
  (u1 k * 2 - 1, u2 k * 2 - 1)

/-- Embedding of `RectangleAperture.area` (in mm², units elided):
`4 * norm(v_y) * norm(v_z)`. -/
noncomputable def rectangleArea (g : FlatGeometry) : ℝ :=
  4 * norm4 g.v_y * norm4 g.v_z

/-- A rectangle aperture `__call__`: the flat-aperture call with the
rectangle sampler. -/
noncomputable def rectangleApertureCall (g : FlatGeometry) (idnum : Option ℕ)
    (loc : Bool) (u1 u2 : ℕ → ℝ) (photons : List Photon) : List Photon :=
  flatApertureCall g idnum loc (rectangleGenerateLocalXY u1 u2) photons

open Classical in
/-- Embedding of `CircleAperture.__init__` after the superclass call: it
raises `ValueError` when `r_inner` exceeds `norm(v_y)` and then
`GeometryError` when `norm(v_y)` and `norm(v_z)` are not `np.isclose`. -/
noncomputable def circleApertureInit (g : CircGeometry) :
    Except ApertureError CircGeometry :=
  if norm4 g.v_y < g.r_inner then Except.error ApertureError.valueError
  else if ¬ isclose (norm4 g.v_y) (norm4 g.v_z) then
    Except.error ApertureError.geometryError
  else Except.ok g

/-- The angle drawn by `CircleAperture.generate_local_xy` for row `k`:
`np.random.uniform(phi[0], phi[1])` with underlying draw `u1 k ∈ [0,1)`. -/
def circlePhi (g : CircGeometry) (u1 : ℕ → ℝ) (k : ℕ) : ℝ :=
  g.phi.1 + u1 k * (g.phi.2 - g.phi.1)

/-- The normalized inner radius `r_inner / norm(v_y)` used by
`CircleAperture.generate_local_xy`. -/
noncomputable def circleRInnerNorm (g : CircGeometry) : ℝ :=
  g.r_inner / norm4 g.v_y

/-- The radius drawn by `CircleAperture.generate_local_xy` for row `k`:
`sqrt(np.random.uniform(r_inner_norm^2, 1))` with draw `u2 k ∈ [0,1)`. -/
noncomputable def circleR (g : CircGeometry) (u2 : ℕ → ℝ) (k : ℕ) : ℝ :=
  Real.sqrt (circleRInnerNorm g ^ 2 + u2 k * (1 - circleRInnerNorm g ^ 2))

/-- Embedding of `CircleAperture.generate_local_xy` for row `k`:
`(r * cos phi, r * sin phi)`. -/
noncomputable def circleGenerateLocalXY (g : CircGeometry) (u1 u2 : ℕ → ℝ)
    (k : ℕ) : ℝ × ℝ :=
  (circleR g u2 k * Real.cos (circlePhi g u1 k),
   circleR g u2 k * Real.sin (circlePhi g u1 k))

/-- Embedding of `CircleAperture.area` (in mm², units elided):
`(phi[1] - phi[0]) / (2 pi) * (pi * (norm(v_y)^2 - r_inner^2))`. -/
noncomputable def circleArea (g : CircGeometry) : ℝ :=
  (g.phi.2 - g.phi.1) / (2 * Real.pi) *
    (Real.pi * (norm4 g.v_y ^ 2 - g.r_inner ^ 2))

/-- A sub-aperture inside a `MultiAperture`: either a rectangle or a
circle aperture, carrying its geometry and its private uniform draws. -/
inductive SubAperture where
  | rect (g : FlatGeometry) (u1 u2 : ℕ → ℝ) : SubAperture
  | circ (g : CircGeometry) (u1 u2 : ℕ → ℝ) : SubAperture

/-- The `area` property of a sub-aperture. -/
noncomputable def SubAperture.area : SubAperture → ℝ
  | SubAperture.rect g _ _ => rectangleArea g
  | SubAperture.circ g _ _ => circleArea g

/-- Calling a sub-aperture on its photon group (elements inside a
`MultiAperture` have no `id_col` of their own by default). -/
noncomputable def SubAperture.call : SubAperture → List Photon → List Photon
  | SubAperture.rect g u1 u2, ph =>
      flatApertureCall g none true (rectangleGenerateLocalXY u1 u2) ph
  | SubAperture.circ g u1 u2, ph =>
      flatApertureCall g.toFlatGeometry none true (circleGenerateLocalXY g u1 u2) ph

/-- Embedding of `np.digitize(x, bins)` for monotonically increasing
`bins`: the number of bin edges that are `≤ x`, so that the result `i`
satisfies `bins[i-1] <= x < bins[i]`. -/
noncomputable def digitize (x : ℝ) (bins : List ℝ) : ℕ :=
  bins.countP (fun b => decide (b ≤ x))

/-- Embedding of `np.cumsum`: entry `i` is the sum of the first `i + 1`
entries of the input. -/
def cumsum (l : List ℝ) : List ℝ :=
  (List.range l.length).map (fun i => (l.take (i + 1)).sum)

/-- Map a function over a list together with the absolute row index,
starting the count at `k` (vectorized column assignment by row). -/
def mapIdxFrom {α : Type} (f : ℕ → α → α) : ℕ → List α → List α
  | _, [] => []
  | k, p :: ps => f k p :: mapIdxFrom f (k + 1) ps

/-- Keep the rows whose absolute index satisfies `q`, counting from `k`
(a boolean row mask such as `aperid == i`). -/
def filterIdxFrom {α : Type} (q : ℕ → Bool) : ℕ → List α → List α
  | _, [] => []
  | k, p :: ps =>
      if q k then p :: filterIdxFrom q (k + 1) ps else filterIdxFrom q (k + 1) ps

/-- The sub-aperture index assigned to row `j` by `MultiAperture.__call__`:
`np.digitize(u_j, np.cumsum(areas) / total_area)`. -/
noncomputable def multiAperid (elems : List SubAperture) (u : ℕ → ℝ) (j : ℕ) : ℕ :=
  digitize (u j)
    ((cumsum (elems.map SubAperture.area)).map
      (fun a => a / (elems.map SubAperture.area).sum))

/-- The photon batch after `MultiAperture.__call__` writes the assigned
sub-aperture index into its id column (`photons[self.id_col] = aperid`). -/
noncomputable def multiTagged (elems : List SubAperture) (u : ℕ → ℝ)
    (photons : List Photon) : List Photon :=
  mapIdxFrom (fun j p => { p with aperture_id := some (multiAperid elems u j) })
    0 photons

/-- Embedding of `MultiAperture.__call__` (with the default empty pre- and
post-processing steps): assign every row to a sub-aperture by digitizing a
uniform draw against the cumulative area fractions, tag the id column,
run each sub-aperture on the rows assigned to it (`enumerate(elements)`),
and stack the resulting groups in element order. -/
noncomputable def multiApertureCall (elems : List SubAperture) (u : ℕ → ℝ)
    (photons : List Photon) : List Photon :=
  ((elems.enumFrom 0).map (fun ie =>
    SubAperture.call ie.2
      (filterIdxFrom (fun j => multiAperid elems u j == ie.1) 0
        (multiTagged elems u photons)))).flatten

/-- The columns of a photon row that no aperture call may modify:
direction, energy, polarization and all remaining (extra) columns. -/
def rowData (p : Photon) : (Fin 4 → ℝ) × ℝ × ℝ × (ℕ → ℝ) :=
  (p.dir, p.energy, p.polarization, p.extra)

/-- Modelled from the spec: the `FlatDetector` implementation is not in
the source tree, only its tests are.  The per-axis pixel count is
`npix = round(2 * scale / pixsize)`, rounding to the nearest integer.
Configuration scalars are exact here, so `ℚ` is used. -/
def npix (scale pixsize : ℚ) : ℤ := round (2 * scale / pixsize)

/-- Modelled from the spec: the center pixel of an axis with `n` pixels
is `centerpix = (npix - 1) / 2`. -/
def centerpix (n : ℤ) : ℚ := ((n : ℚ) - 1) / 2

/-- Geometry of a `CircularDetector` tube: origin, the cylinder axis
`e_x` with axial scale `s_x`, the transverse directions `e_y`, `e_z`,
the radius, the angular offset and the inside/outside flag.  Euclidean
3-vectors suffice here. -/
structure TubeGeometry where
  center : Fin 3 → ℝ
  e_x : Fin 3 → ℝ
  e_y : Fin 3 → ℝ
  e_z : Fin 3 → ℝ
  radius : ℝ
  s_x : ℝ
  phi_offset : ℝ
  inside : Bool

/-- The component of `v` perpendicular to the tube axis (projection into
the plane orthogonal to `e_x`, for a unit axis). -/
def perp (g : TubeGeometry) (v : Fin 3 → ℝ) : Fin 3 → ℝ :=
  fun i => v i - dot3 v g.e_x * g.e_x i

/-- Per-photon result of a tube intersection: the hit flag and the
NaN-able (here `Option`-wrapped) global point and local coordinates. -/
structure IntersectResult where
  hit : Bool
  interpos : Option (Fin 3 → ℝ)
  inter_local : Option (ℝ × ℝ)

/-- The miss outcome: `hit == false` with all position fields NaN-filled
(`none`). -/
def tubeMiss : IntersectResult :=
  { hit := false, interpos := none, inter_local := none }

open Classical in
/-- Modelled from the spec: the `CircularDetector.intersect` routine is
not in the source tree, only its tests are.  Project `pos` and `dir`
into the plane perpendicular to the axis, form the quadratic
`a t^2 + b t + c = 0` for intersection with the circle of the tube
radius, mark a miss (all outputs NaN) when the quadratic is degenerate
(`a = 0`, ray parallel to the axis) or the discriminant is negative;
otherwise pick the larger root when looking from inside and the smaller
root (first strike) from outside, and return the global point together
with the local angular coordinate (`atan2` minus `phi_offset`) and the
axial coordinate scaled by `1 / s_x`.  The spec leaves the exact
normalization of the angle and any further root-acceptance range
under-determined; they do not affect the miss cases verified here. -/
noncomputable def circularDetectorIntersect (g : TubeGeometry)
    (dir pos : Fin 3 → ℝ) : IntersectResult :=
  let pc : Fin 3 → ℝ := fun i => pos i - g.center i
  let dperp := perp g dir
  let pperp := perp g pc
  let a := dot3 dperp dperp
  let b := 2 * dot3 dperp pperp
  let c := dot3 pperp pperp - g.radius ^ 2
  if a = 0 then tubeMiss
  else
    let disc := b ^ 2 - 4 * a * c
    if disc < 0 then tubeMiss
    else
      let t := if g.inside then (-b + Real.sqrt disc) / (2 * a)
               else (-b - Real.sqrt disc) / (2 * a)
      let point : Fin 3 → ℝ := fun i => pos i + t * dir i
      let pc2 : Fin 3 → ℝ := fun i => point i - g.center i
      { hit := true
        interpos := some point
        inter_local := some
          (Complex.arg (Complex.mk (dot3 pc2 g.e_y) (dot3 pc2 g.e_z)) - g.phi_offset,
           dot3 pc2 g.e_x / g.s_x) }

/-- A concrete flat geometry in the default placement: center on the
optical axis at homogeneous coordinate 1, `v_y` and `v_z` the unit `y`
and `z` vectors, `e_x` the unit `x` normal. -/
def g0 : FlatGeometry :=
  { center := fun i => if i = 3 then 1 else 0
    v_y := fun i => if i = 1 then 1 else 0
    v_z := fun i => if i = 2 then 1 else 0
    e_x := fun i => if i = 0 then 1 else 0 }

/-- A concrete photon row travelling in the `-x` direction with
probability 1. -/
def p0 : Photon :=
  { pos := fun i => if i = 3 then 1 else 0
    dir := fun i => if i = 0 then -1 else 0
    energy := 1
    polarization := 1
    probability := 1
    loc_x := none
    loc_y := none
    id := none
    aperture_id := none
    extra := fun _ => 0 }

/-- The constant-zero uniform draw stream. -/
def u0 : ℕ → ℝ := fun _ => 0

/-- The constant three-quarters uniform draw stream. -/
noncomputable def u34 : ℕ → ℝ := fun _ => 3 / 4

/-- A concrete stream of sampled local coordinates, identically `(0,0)`. -/
def xy0 : ℕ → ℝ × ℝ := fun _ => (0, 0)

/-- A concrete circle-aperture geometry: unit radius, no inner hole,
angular interval `[0, 1)`. -/
def cg0 : CircGeometry :=
  { toFlatGeometry := g0, r_inner := 0, phi := (0, 1) }

/-- A concrete circle-aperture geometry whose inner radius equals the
outer radius (`r_inner = norm(v_y) = 1`) with symmetric scale. -/
def cg1 : CircGeometry :=
  { toFlatGeometry := g0, r_inner := 1, phi := (0, 1) }

/-- A concrete pair of rectangle sub-apertures for a `MultiAperture`. -/
noncomputable def elems0 : List SubAperture :=
  [SubAperture.rect g0 u0 u0, SubAperture.rect g0 u0 u0]

/-- A concrete tube in the default placement: unit radius, unit axial
scale, axis along `x`, looking from inside. -/
def tg0 : TubeGeometry :=
  { center := fun _ => 0
    e_x := fun i => if i = 0 then 1 else 0
    e_y := fun i => if i = 1 then 1 else 0
    e_z := fun i => if i = 2 then 1 else 0
    radius := 1
    s_x := 1
    phi_offset := 0
    inside := true }

/-- A concrete ray direction with a transverse component. -/
def dirA : Fin 3 → ℝ := fun i => if i = 0 then 1 else if i = 1 then 1 else 0

/-- A concrete ray origin displaced along the transverse `z` axis so the
ray stays at distance 2 from the tube axis. -/
def posA : Fin 3 → ℝ := fun i => if i = 2 then 2 else 0

/-- A concrete ray direction exactly parallel to the tube axis. -/
def dirB : Fin 3 → ℝ := fun i => if i = 0 then 1 else 0

/-- A concrete ray origin on the tube axis (through the center). -/
def posB : Fin 3 → ℝ := fun _ => 0

/-! Helper lemmas. -/

theorem clip_nonneg (x : ℝ) : 0 ≤ clip x 0 1 :=
  le_min (le_max_right x 0) zero_le_one

theorem clip_le_one (x : ℝ) : clip x 0 1 ≤ 1 :=
  min_le_right _ _

theorem clip_of_nonpos (x : ℝ) (h : x ≤ 0) : clip x 0 1 = 0 := by
  rw [clip, max_eq_right h, min_eq_left zero_le_one]

theorem dot4_neg_right (a b : Fin 4 → ℝ) :
    dot4 a (fun i => -(b i)) = -(dot4 a b) := by
  simp [dot4, mul_neg]

@[simp] theorem flatApertureOne_probability (g : FlatGeometry) (idnum : Option ℕ)
    (loc : Bool) (xyk : ℝ × ℝ) (p : Photon) :
    (flatApertureOne g idnum loc xyk p).probability =
      p.probability * clip (dot4 p.dir (fun i => -(g.e_x i))) 0 1 := rfl

@[simp] theorem flatApertureOne_pos (g : FlatGeometry) (idnum : Option ℕ)
    (loc : Bool) (xyk : ℝ × ℝ) (p : Photon) :
    (flatApertureOne g idnum loc xyk p).pos =
      fun i => g.center i + xyk.1 * g.v_y i + xyk.2 * g.v_z i := rfl

@[simp] theorem flatApertureOne_dir (g : FlatGeometry) (idnum : Option ℕ)
    (loc : Bool) (xyk : ℝ × ℝ) (p : Photon) :
    (flatApertureOne g idnum loc xyk p).dir = p.dir := rfl

@[simp] theorem flatApertureOne_energy (g : FlatGeometry) (idnum : Option ℕ)
    (loc : Bool) (xyk : ℝ × ℝ) (p : Photon) :
    (flatApertureOne g idnum loc xyk p).energy = p.energy := rfl

@[simp] theorem flatApertureOne_polarization (g : FlatGeometry) (idnum : Option ℕ)
    (loc : Bool) (xyk : ℝ × ℝ) (p : Photon) :
    (flatApertureOne g idnum loc xyk p).polarization = p.polarization := rfl

@[simp] theorem flatApertureOne_extra (g : FlatGeometry) (idnum : Option ℕ)
    (loc : Bool) (xyk : ℝ × ℝ) (p : Photon) :
    (flatApertureOne g idnum loc xyk p).extra = p.extra := rfl

@[simp] theorem flatApertureOne_loc_x (g : FlatGeometry) (idnum : Option ℕ)
    (loc : Bool) (xyk : ℝ × ℝ) (p : Photon) :
    (flatApertureOne g idnum loc xyk p).loc_x =
      if loc then some xyk.1 else p.loc_x := rfl

@[simp] theorem flatApertureOne_loc_y (g : FlatGeometry) (idnum : Option ℕ)
    (loc : Bool) (xyk : ℝ × ℝ) (p : Photon) :
    (flatApertureOne g idnum loc xyk p).loc_y =
      if loc then some xyk.2 else p.loc_y := rfl

@[simp] theorem flatApertureOne_id_none (g : FlatGeometry) (loc : Bool)
    (xyk : ℝ × ℝ) (p : Photon) :
    (flatApertureOne g none loc xyk p).id = p.id := rfl

theorem rowData_flatApertureOne (g : FlatGeometry) (idnum : Option ℕ)
    (loc : Bool) (xyk : ℝ × ℝ) (p : Photon) :
    rowData (flatApertureOne g idnum loc xyk p) = rowData p := rfl

theorem flatApertureList_length (g : FlatGeometry) (idnum : Option ℕ)
    (loc : Bool) (xy : ℕ → ℝ × ℝ) :
    ∀ (l : List Photon) (k : ℕ), (flatApertureList g idnum loc xy l k).length = l.length := by
  intro l
  induction l with
  | nil => intro k; rfl
  | cons p ps ih => intro k; simp [flatApertureList, ih]

theorem flatApertureList_getElem_opt (g : FlatGeometry) (idnum : Option ℕ)
    (loc : Bool) (xy : ℕ → ℝ × ℝ) :
    ∀ (l : List Photon) (k j : ℕ),
      (flatApertureList g idnum loc xy l k)[j]? =
        l[j]?.map (flatApertureOne g idnum loc (xy (k + j))) := by
  intro l
  induction l with
  | nil => intro k j; simp [flatApertureList]
  | cons p ps ih =>
      intro k j
      cases j with
      | zero => simp [flatApertureList]
      | succ m =>
          have harith : k + 1 + m = k + (m + 1) := by omega
          simp [flatApertureList, ih (k + 1) m, harith]

theorem flatApertureList_map_rowData (g : FlatGeometry) (idnum : Option ℕ)
    (loc : Bool) (xy : ℕ → ℝ × ℝ) :
    ∀ (l : List Photon) (k : ℕ),
      (flatApertureList g idnum loc xy l k).map rowData = l.map rowData := by
  intro l
  induction l with
  | nil => intro k; rfl
  | cons p ps ih => intro k; simp [flatApertureList, ih, rowData_flatApertureOne]

/-! Claim theorems, part 1. -/

/-- C10: `FlatAperture.process_photons` (inherited by `RectangleAperture`
and `CircleAperture`) unconditionally raises `NotImplementedError` and
never returns a photon batch; the aperture transformation is available
only through `__call__`. -/
theorem process_photons_not_implemented_spec (photons : List Photon) :
    flatApertureProcessPhotons photons =
      Except.error ApertureError.notImplementedError ∧
    ∀ result : List Photon, flatApertureProcessPhotons photons ≠ Except.ok result := by
  refine ⟨rfl, fun result hr => ?_⟩
  simp [flatApertureProcessPhotons] at hr

/-- C5: the flat-detector pixel grid has `npix = round(2*scale/pixsize)`
per axis, rounding to nearest (the distance to the exact value never
exceeds one half, so it cannot systematically floor); `centerpix =
(npix-1)/2`; for zoom `[1,10,5]` and pixel size `0.5` this gives
`npix = [40,20]` and `centerpix = [19.5, 9.5]`, and for pixel size
`0.05` with extent 2 per axis it gives `npix = [40,40]`. -/
theorem flat_detector_pixel_spec :
    (∀ scale pixsize : ℚ,
      |2 * scale / pixsize - ((npix scale pixsize : ℤ) : ℚ)| ≤ 1 / 2)
    ∧ npix 10 (1/2) = 40 ∧ npix 5 (1/2) = 20
    ∧ centerpix (npix 10 (1/2)) = 39/2 ∧ centerpix (npix 5 (1/2)) = 19/2
    ∧ npix 1 (1/20) = 40 := by
  refine ⟨fun scale pixsize => ?_, ?_, ?_, ?_, ?_, ?_⟩
  · simpa [npix] using abs_sub_round (2 * scale / pixsize)
  all_goals norm_num [npix, centerpix]

/-- C9: the `area` property of a `RectangleAperture` equals
`4 * norm(v_y) * norm(v_z)` and the `area` property of a
`CircleAperture` equals `(phi_max - phi_min)/(2 pi) * pi *
(norm(v_y)^2 - r_inner^2)`, for every geometry configuration. -/
theorem aperture_area_spec (gr : FlatGeometry) (gc : CircGeometry) :
    rectangleArea gr = 4 * norm4 gr.v_y * norm4 gr.v_z ∧
    circleArea gc = (gc.phi.2 - gc.phi.1) / (2 * Real.pi) * Real.pi *
      (norm4 gc.v_y ^ 2 - gc.r_inner ^ 2) := by
  constructor
  · rfl
  · rw [circleArea]; ring

/-- C1: a flat aperture call multiplies each photon's probability by
`clip(dir · (-e_x), 0, 1)`; hence for an original probability in `[0,1]`
the result lies in `[0, original]`, and a photon with `dir · e_x >= 0`
(hitting the back face) ends with probability `0`. -/
theorem flat_aperture_probability_spec (g : FlatGeometry) (idnum : Option ℕ)
    (loc : Bool) (xy : ℕ → ℝ × ℝ) (photons : List Photon) (j : ℕ)
    (h : j < photons.length) :
    ∃ q : Photon, (flatApertureCall g idnum loc xy photons)[j]? = some q ∧
      q.probability = (photons.get ⟨j, h⟩).probability *
        clip (dot4 (photons.get ⟨j, h⟩).dir (fun i => -(g.e_x i))) 0 1 ∧
      (0 ≤ (photons.get ⟨j, h⟩).probability →
        (photons.get ⟨j, h⟩).probability ≤ 1 →
        0 ≤ q.probability ∧ q.probability ≤ (photons.get ⟨j, h⟩).probability) ∧
      (0 ≤ dot4 (photons.get ⟨j, h⟩).dir g.e_x → q.probability = 0) := by
  refine ⟨flatApertureOne g idnum loc (xy (0 + j)) (photons.get ⟨j, h⟩), ?_, rfl, ?_, ?_⟩
  · rw [flatApertureCall, flatApertureList_getElem_opt,
      List.getElem?_eq_getElem h]
    rfl
  · intro h0 h1
    constructor
    · exact mul_nonneg h0 (clip_nonneg _)
    · simpa using mul_le_of_le_one_right h0
        (clip_le_one (dot4 (photons.get ⟨j, h⟩).dir (fun i => -(g.e_x i))))
  · intro hback
    rw [flatApertureOne_probability, dot4_neg_right,
      clip_of_nonpos _ (neg_nonpos.mpr hback), mul_zero]

/-- Witness for C1 at a concrete batch: one photon travelling along
`-x` through the default-placement aperture keeps probability
`1 * clip(1, 0, 1)`. -/
theorem flat_aperture_probability_witness :
    ((flatApertureCall g0 none true xy0 [p0])[0]?.map Photon.probability) =
      some (p0.probability *
        clip (dot4 p0.dir (fun i => -(g0.e_x i))) 0 1) := by
  obtain ⟨q, hq, hprob, _, _⟩ :=
    flat_aperture_probability_spec g0 none true xy0 [p0] 0 (by simp)
  rw [hq]
  simp [hprob]

theorem norm4_g0_vy : norm4 g0.v_y = 1 := by
  have h : dot4 g0.v_y g0.v_y = 1 := by
    simp [dot4, g0, Fin.sum_univ_four]
  rw [norm4, h, Real.sqrt_one]

theorem norm4_g0_vz : norm4 g0.v_z = 1 := by
  have h : dot4 g0.v_z g0.v_z = 1 := by
    simp [dot4, g0, Fin.sum_univ_four]
  rw [norm4, h, Real.sqrt_one]

theorem isclose_refl_one : isclose 1 1 := by
  norm_num [isclose]

/-- C7: a flat aperture call sets each photon's global position to
`center + x*v_y + y*v_z` with the sampled local coordinates written into
the local-coordinate columns; for `RectangleAperture` these coordinates
are affine images `u*2 - 1` of independent uniform draws and lie in
`[-1, 1]`. -/
theorem rectangle_aperture_position_spec (g : FlatGeometry) (idnum : Option ℕ)
    (u1 u2 : ℕ → ℝ) (photons : List Photon) (j : ℕ) (h : j < photons.length)
    (hu1 : 0 ≤ u1 j ∧ u1 j < 1) (hu2 : 0 ≤ u2 j ∧ u2 j < 1) :
    ∃ q : Photon, (rectangleApertureCall g idnum true u1 u2 photons)[j]? = some q ∧
      q.pos = (fun i => g.center i + (u1 j * 2 - 1) * g.v_y i +
        (u2 j * 2 - 1) * g.v_z i) ∧
      q.loc_x = some (u1 j * 2 - 1) ∧ q.loc_y = some (u2 j * 2 - 1) ∧
      (u1 j * 2 - 1) ∈ Set.Icc (-1 : ℝ) 1 ∧ (u2 j * 2 - 1) ∈ Set.Icc (-1 : ℝ) 1 := by
  refine ⟨flatApertureOne g idnum true (rectangleGenerateLocalXY u1 u2 (0 + j))
    (photons.get ⟨j, h⟩), ?_, ?_, ?_, ?_, ?_, ?_⟩
  · rw [rectangleApertureCall, flatApertureCall, flatApertureList_getElem_opt,
      List.getElem?_eq_getElem h]
    rfl
  · simp [rectangleGenerateLocalXY]
  · simp [rectangleGenerateLocalXY]
  · simp [rectangleGenerateLocalXY]
  · simp only [Set.mem_Icc]
    constructor
    · linarith [hu1.1]
    · linarith [hu1.2]
  · simp only [Set.mem_Icc]
    constructor
    · linarith [hu2.1]
    · linarith [hu2.2]

/-- Witness for C7 at a concrete batch: with zero draws the sampled
coordinate is `-1` and is recorded in the local-coordinate column. -/
theorem rectangle_aperture_position_witness :
    ((rectangleApertureCall g0 none true u0 u0 [p0])[0]?.map Photon.loc_x) =
      some (some (u0 0 * 2 - 1)) ∧ (u0 0 * 2 - 1) ∈ Set.Icc (-1 : ℝ) 1 := by
  obtain ⟨q, hq, _, hlx, _, hmem1, _⟩ :=
    rectangle_aperture_position_spec g0 none u0 u0 [p0] 0 (by simp)
      (by norm_num [u0]) (by norm_num [u0])
  refine ⟨?_, hmem1⟩
  rw [hq]
  simp [hlx]

/-- C8: a flat aperture call returns a batch of exactly the input length
and leaves `dir`, `energy`, `polarization` and every other pre-existing
column untouched (and the id column too unless the element requests an
id), modifying only `pos`, `probability` and the element-specific
columns. -/
theorem flat_aperture_columns_spec (g : FlatGeometry) (idnum : Option ℕ)
    (loc : Bool) (xy : ℕ → ℝ × ℝ) (photons : List Photon) :
    (flatApertureCall g idnum loc xy photons).length = photons.length ∧
    ∀ j (h : j < photons.length),
      ((flatApertureCall g idnum loc xy photons)[j]?.map Photon.dir) =
        some (photons.get ⟨j, h⟩).dir ∧
      ((flatApertureCall g idnum loc xy photons)[j]?.map Photon.energy) =
        some (photons.get ⟨j, h⟩).energy ∧
      ((flatApertureCall g idnum loc xy photons)[j]?.map Photon.polarization) =
        some (photons.get ⟨j, h⟩).polarization ∧
      ((flatApertureCall g idnum loc xy photons)[j]?.map Photon.extra) =
        some (photons.get ⟨j, h⟩).extra ∧
      (idnum = none →
        ((flatApertureCall g idnum loc xy photons)[j]?.map Photon.id) =
          some (photons.get ⟨j, h⟩).id) := by
  constructor
  · exact flatApertureList_length g idnum loc xy photons 0
  · intro j h
    have hopt : (flatApertureCall g idnum loc xy photons)[j]? =
        some (flatApertureOne g idnum loc (xy (0 + j)) (photons.get ⟨j, h⟩)) := by
      rw [flatApertureCall, flatApertureList_getElem_opt,
        List.getElem?_eq_getElem h]
      rfl
    rw [hopt]
    refine ⟨by simp, by simp, by simp, by simp, ?_⟩
    rintro rfl
    simp

/-- Witness for C8 at a concrete batch: the direction column survives the
aperture call unchanged. -/
theorem flat_aperture_columns_witness :
    ((flatApertureCall g0 none true xy0 [p0])[0]?.map Photon.dir) = some p0.dir := by
  have h := (flat_aperture_columns_spec g0 none true xy0 [p0]).2 0 (by simp)
  exact h.1

/-- C2 counterexample: a `CircleAperture` whose inner radius equals the
outer radius (`r_inner = norm(v_y) = 1`, symmetric scale) is accepted by
the constructor, although the claim asserts construction fails with a
`GeometryError` whenever `r_inner` is not strictly less than the outer
radius. -/
theorem circle_aperture_init_strict_counterexample :
    circleApertureInit cg1 = Except.ok cg1 := by
  have hy : norm4 cg1.v_y = 1 := norm4_g0_vy
  have hz : norm4 cg1.v_z = 1 := norm4_g0_vz
  have h1 : ¬ (norm4 cg1.v_y < cg1.r_inner) := by
    rw [hy]
    norm_num [cg1]
  have h2 : ¬ ¬ isclose (norm4 cg1.v_y) (norm4 cg1.v_z) := by
    rw [hy, hz]
    exact not_not_intro isclose_refl_one
  rw [circleApertureInit, if_neg h1, if_neg h2]

/-- C2 (amended): construction raises `GeometryError` exactly when the
radius check passes (`r_inner <= norm(v_y)`) but the `v_y` and `v_z`
norms are not equal within tolerance; it raises `ValueError` exactly when
`r_inner` strictly exceeds `norm(v_y)`; and with symmetric scale and
`r_inner <= norm(v_y)` (equality allowed) construction succeeds. -/
theorem circle_aperture_init_spec (g : CircGeometry) :
    (circleApertureInit g = Except.error ApertureError.geometryError ↔
      g.r_inner ≤ norm4 g.v_y ∧ ¬ isclose (norm4 g.v_y) (norm4 g.v_z))
    ∧ (circleApertureInit g = Except.error ApertureError.valueError ↔
      norm4 g.v_y < g.r_inner)
    ∧ (g.r_inner ≤ norm4 g.v_y → isclose (norm4 g.v_y) (norm4 g.v_z) →
      circleApertureInit g = Except.ok g) := by
  rw [circleApertureInit]
  by_cases h1 : norm4 g.v_y < g.r_inner
  · rw [if_pos h1]
    refine ⟨?_, ?_, ?_⟩
    · simp [not_le.mpr h1]
    · simp [h1]
    · intro ha
      exact absurd ha (not_le.mpr h1)
  · rw [if_neg h1]
    by_cases h2 : isclose (norm4 g.v_y) (norm4 g.v_z)
    · rw [if_neg (not_not_intro h2)]
      exact ⟨by simp [h2], by simp [h1], fun _ _ => rfl⟩
    · rw [if_pos h2]
      refine ⟨?_, ?_, ?_⟩
      · simp [not_lt.mp h1, h2]
      · simp [h1]
      · intro _ hclose
        exact absurd hclose h2

/-- Witness for C2 (amended) at a concrete geometry: symmetric unit scale
and `r_inner = 0` construct successfully. -/
theorem circle_aperture_init_witness :
    circleApertureInit cg0 = Except.ok cg0 := by
  refine (circle_aperture_init_spec cg0).2.2 ?_ ?_
  · show (0 : ℝ) ≤ norm4 g0.v_y
    rw [norm4_g0_vy]
    norm_num
  · show isclose (norm4 g0.v_y) (norm4 g0.v_z)
    rw [norm4_g0_vy, norm4_g0_vz]
    exact isclose_refl_one

/-- C6: `CircleAperture.generate_local_xy` draws the angle as an affine
image of a uniform draw covering exactly `[phi_min, phi_max)`, draws the
radius as `sqrt(uniform((r_inner/norm(v_y))^2, 1))` — so the squared
normalized radius is an affine (inverse-CDF, area-uniform) image of the
draw and the radius lies between `r_inner/norm(v_y)` and `1` — and
returns `(r*cos(phi), r*sin(phi))`. -/
theorem circle_generate_local_xy_spec (g : CircGeometry) (u1 u2 : ℕ → ℝ) (k : ℕ)
    (hu1 : 0 ≤ u1 k ∧ u1 k < 1) (hu2 : 0 ≤ u2 k ∧ u2 k < 1)
    (hr0 : 0 ≤ g.r_inner) (hrle : g.r_inner ≤ norm4 g.v_y)
    (hny : 0 < norm4 g.v_y) (hphi : g.phi.1 < g.phi.2) :
    circlePhi g u1 k ∈ Set.Ico g.phi.1 g.phi.2 ∧
    circleR g u2 k ^ 2 =
      circleRInnerNorm g ^ 2 + u2 k * (1 - circleRInnerNorm g ^ 2) ∧
    circleRInnerNorm g ≤ circleR g u2 k ∧ circleR g u2 k ≤ 1 ∧
    circleGenerateLocalXY g u1 u2 k =
      (circleR g u2 k * Real.cos (circlePhi g u1 k),
       circleR g u2 k * Real.sin (circlePhi g u1 k)) := by
  have hrn0 : 0 ≤ circleRInnerNorm g := div_nonneg hr0 (le_of_lt hny)
  have hrn1 : circleRInnerNorm g ≤ 1 := (div_le_one hny).mpr hrle
  have hval0 : 0 ≤ circleRInnerNorm g ^ 2 + u2 k * (1 - circleRInnerNorm g ^ 2) := by
    nlinarith [hu2.1, hrn0, hrn1]
  have hrnsq : circleRInnerNorm g ^ 2 ≤ 1 := by
    nlinarith [hrn0, hrn1]
  have hval1 : circleRInnerNorm g ^ 2 + u2 k * (1 - circleRInnerNorm g ^ 2) ≤ 1 := by
    nlinarith [mul_nonneg (sub_nonneg.mpr (le_of_lt hu2.2)) (sub_nonneg.mpr hrnsq)]
  refine ⟨?_, ?_, ?_, ?_, rfl⟩
  · simp only [Set.mem_Ico, circlePhi]
    constructor
    · nlinarith [hu1.1]
    · nlinarith [hu1.2]
  · rw [circleR]
    exact Real.sq_sqrt hval0
  · calc circleRInnerNorm g
        = Real.sqrt (circleRInnerNorm g ^ 2) := (Real.sqrt_sq hrn0).symm
      _ ≤ circleR g u2 k := by
          rw [circleR]
          exact Real.sqrt_le_sqrt (by nlinarith [hu2.1, hrn1])
  · rw [circleR]
    calc Real.sqrt (circleRInnerNorm g ^ 2 + u2 k * (1 - circleRInnerNorm g ^ 2))
        ≤ Real.sqrt 1 := Real.sqrt_le_sqrt hval1
      _ = 1 := Real.sqrt_one

/-- Witness for C6 at a concrete geometry and zero draws: the angle falls
in the configured interval and the radius lies between the normalized
inner radius and one. -/
theorem circle_generate_local_xy_witness :
    circlePhi cg0 u0 0 ∈ Set.Ico cg0.phi.1 cg0.phi.2 ∧
    circleRInnerNorm cg0 ≤ circleR cg0 u0 0 ∧ circleR cg0 u0 0 ≤ 1 := by
  have hny : (0 : ℝ) < norm4 cg0.v_y := by
    show (0 : ℝ) < norm4 g0.v_y
    rw [norm4_g0_vy]
    norm_num
  obtain ⟨h1, _, h3, h4, _⟩ := circle_generate_local_xy_spec cg0 u0 u0 0
    (by norm_num [u0]) (by norm_num [u0]) (by norm_num [cg0])
    (by show (0 : ℝ) ≤ norm4 g0.v_y; rw [norm4_g0_vy]; norm_num) hny
    (by norm_num [cg0])
  exact ⟨h1, h3, h4⟩

theorem dot3_self_nonneg (v : Fin 3 → ℝ) : 0 ≤ dot3 v v :=
  Finset.sum_nonneg (fun i _ => mul_self_nonneg (v i))

theorem perp_ray (g : TubeGeometry) (dir pos : Fin 3 → ℝ) (t : ℝ) :
    perp g (fun i => pos i + t * dir i - g.center i) =
      fun i => perp g (fun i2 => pos i2 - g.center i2) i + t * perp g dir i := by
  funext i
  simp only [perp, dot3, Fin.sum_univ_three]
  ring

theorem dot3_quad (pp dp : Fin 3 → ℝ) (t : ℝ) :
    dot3 (fun i => pp i + t * dp i) (fun i => pp i + t * dp i) =
      dot3 dp dp * t ^ 2 + 2 * dot3 dp pp * t + dot3 pp pp := by
  simp only [dot3, Fin.sum_univ_three]
  ring

theorem quad_pos_disc_neg (A B C : ℝ) (hA : 0 < A)
    (H : ∀ t : ℝ, 0 < A * t ^ 2 + B * t + C) : B ^ 2 - 4 * A * C < 0 := by
  have h0 := H (-B / (2 * A))
  have hA' : (A : ℝ) ≠ 0 := ne_of_gt hA
  have heq : A * (-B / (2 * A)) ^ 2 + B * (-B / (2 * A)) + C =
      (4 * A * C - B ^ 2) / (4 * A) := by
    field_simp
    ring
  rw [heq] at h0
  have h4A : (0 : ℝ) < 4 * A := by linarith
  have h1 : 0 < 4 * A * C - B ^ 2 := by
    have h2 := mul_pos h0 h4A
    rwa [div_mul_cancel₀ _ (ne_of_gt h4A)] at h2
  linarith

/-- C4: for the modelled `CircularDetector.intersect`, a ray whose
perpendicular distance from the tube axis always exceeds the radius
misses (negative discriminant), a ray with no radial direction component
(parallel to the axis, in particular through the center) misses
(degenerate quadratic), and in every case `hit == false` comes with both
position outputs NaN-filled (`none`); the geometry (hence any translated
or rotated placement) is arbitrary. -/
theorem circular_detector_miss_spec (g : TubeGeometry) (dir pos : Fin 3 → ℝ) :
    ((∀ t : ℝ, g.radius ^ 2 <
        dot3 (perp g (fun i => pos i + t * dir i - g.center i))
          (perp g (fun i => pos i + t * dir i - g.center i))) →
      circularDetectorIntersect g dir pos = tubeMiss)
    ∧ (perp g dir = (fun _ => 0) →
      circularDetectorIntersect g dir pos = tubeMiss)
    ∧ ((circularDetectorIntersect g dir pos).hit = false →
      (circularDetectorIntersect g dir pos).interpos = none ∧
      (circularDetectorIntersect g dir pos).inter_local = none) := by
  refine ⟨?_, ?_, ?_⟩
  · intro H
    by_cases ha : dot3 (perp g dir) (perp g dir) = 0
    · simp only [circularDetectorIntersect]
      rw [if_pos ha]
    · have hapos : 0 < dot3 (perp g dir) (perp g dir) :=
        lt_of_le_of_ne (dot3_self_nonneg _) (Ne.symm ha)
      have key : ∀ t : ℝ, 0 < dot3 (perp g dir) (perp g dir) * t ^ 2 +
          2 * dot3 (perp g dir) (perp g (fun i => pos i - g.center i)) * t +
          (dot3 (perp g (fun i => pos i - g.center i))
            (perp g (fun i => pos i - g.center i)) - g.radius ^ 2) := by
        intro t
        have h1 := H t
        rw [perp_ray g dir pos t, dot3_quad] at h1
        linarith
      have hdisc := quad_pos_disc_neg _ _ _ hapos key
      simp only [circularDetectorIntersect]
      rw [if_neg ha, if_pos hdisc]
  · intro hd
    have ha : dot3 (perp g dir) (perp g dir) = 0 := by
      rw [hd]
      simp [dot3]
    simp only [circularDetectorIntersect]
    rw [if_pos ha]
  · intro hfalse
    by_cases ha : dot3 (perp g dir) (perp g dir) = 0
    · simp only [circularDetectorIntersect]
      rw [if_pos ha]
      exact ⟨rfl, rfl⟩
    · by_cases hdisc : (2 * dot3 (perp g dir) (perp g (fun i => pos i - g.center i))) ^ 2 -
          4 * dot3 (perp g dir) (perp g dir) *
          (dot3 (perp g (fun i => pos i - g.center i))
            (perp g (fun i => pos i - g.center i)) - g.radius ^ 2) < 0
      · simp only [circularDetectorIntersect]
        rw [if_neg ha, if_pos hdisc]
        exact ⟨rfl, rfl⟩
      · exfalso
        simp only [circularDetectorIntersect] at hfalse
        rw [if_neg ha, if_neg hdisc] at hfalse
        simp at hfalse

/-- Witness for C4 at concrete rays on the default tube: a ray staying at
distance 2 from the axis misses, and an axis-parallel ray through the
center misses. -/
theorem circular_detector_miss_witness :
    circularDetectorIntersect tg0 dirA posA = tubeMiss ∧
    circularDetectorIntersect tg0 dirB posB = tubeMiss := by
  constructor
  · refine (circular_detector_miss_spec tg0 dirA posA).1 ?_
    intro t
    have hp : perp tg0 (fun i => posA i + t * dirA i - tg0.center i) =
        (fun i => if i = 1 then t else if i = 2 then 2 else 0) := by
      funext i
      fin_cases i <;>
        simp +decide [perp, dot3, tg0, dirA, posA, Fin.sum_univ_three]
    rw [hp]
    have hd : dot3 (fun i : Fin 3 => if i = 1 then t else if i = 2 then 2 else 0)
        (fun i : Fin 3 => if i = 1 then t else if i = 2 then 2 else 0) =
          t * t + 4 := by
      simp +decide [dot3, Fin.sum_univ_three]
      ring
    rw [hd]
    have hr : tg0.radius = 1 := rfl
    rw [hr]
    nlinarith [sq_nonneg t]
  · refine (circular_detector_miss_spec tg0 dirB posB).2.1 ?_
    funext i
    fin_cases i <;> simp [tg0, dirB, perp, dot3, Fin.sum_univ_three]

theorem mapIdxFrom_length {α : Type} (f : ℕ → α → α) :
    ∀ (l : List α) (k : ℕ), (mapIdxFrom f k l).length = l.length := by
  intro l
  induction l with
  | nil => intro k; rfl
  | cons p ps ih => intro k; simp [mapIdxFrom, ih]

theorem mapIdxFrom_getElem_opt {α : Type} (f : ℕ → α → α) :
    ∀ (l : List α) (k j : ℕ), (mapIdxFrom f k l)[j]? = l[j]?.map (f (k + j)) := by
  intro l
  induction l with
  | nil => intro k j; simp [mapIdxFrom]
  | cons p ps ih =>
      intro k j
      cases j with
      | zero => simp [mapIdxFrom]
      | succ m =>
          have harith : k + 1 + m = k + (m + 1) := by omega
          simp [mapIdxFrom, ih (k + 1) m, harith]

theorem mapIdxFrom_map {α β : Type} (f : ℕ → α → α) (c : α → β)
    (hc : ∀ k p, c (f k p) = c p) :
    ∀ (l : List α) (k : ℕ), (mapIdxFrom f k l).map c = l.map c := by
  intro l
  induction l with
  | nil => intro k; rfl
  | cons p ps ih => intro k; simp [mapIdxFrom, ih, hc]

theorem filterIdxFrom_map {α β : Type} (q : ℕ → Bool) (c : α → β) :
    ∀ (l : List α) (k : ℕ),
      (filterIdxFrom q k l).map c = filterIdxFrom q k (l.map c) := by
  intro l
  induction l with
  | nil => intro k; rfl
  | cons p ps ih =>
      intro k
      by_cases hq : q k
      · simp [filterIdxFrom, hq, ih]
      · simp [filterIdxFrom, hq, ih]

theorem flatten_ite_cons_perm {α : Type} (p : α) (h : ℕ → List α) (i0 : ℕ) :
    ∀ K, i0 < K →
      List.Perm (((List.range K).map (fun i => if i0 = i then p :: h i else h i)).flatten)
        (p :: ((List.range K).map h).flatten) := by
  intro K
  induction K with
  | zero => intro hlt; exact absurd hlt (by omega)
  | succ K ih =>
      intro hlt
      rw [List.range_succ, List.map_append, List.map_append,
        List.flatten_append, List.flatten_append]
      by_cases hK : i0 = K
      · have hpre : (List.range K).map (fun i => if i0 = i then p :: h i else h i) =
            (List.range K).map h := by
          apply List.map_congr_left
          intro i hi
          have hne : i0 ≠ i := by
            have := List.mem_range.mp hi
            omega
          rw [if_neg hne]
        rw [hpre]
        simp only [List.map_cons, List.map_nil, List.flatten_cons, List.flatten_nil,
          List.append_nil, if_pos hK]
        exact List.perm_middle
      · have hlt' : i0 < K := by omega
        simp only [List.map_cons, List.map_nil, List.flatten_cons, List.flatten_nil,
          List.append_nil, if_neg hK]
        exact (ih hlt').append_right (h K)

theorem partition_filterIdx_perm {α : Type} (f : ℕ → ℕ) (K : ℕ)
    (hf : ∀ j, f j < K) :
    ∀ (l : List α) (k0 : ℕ),
      List.Perm (((List.range K).map
        (fun i => filterIdxFrom (fun j => f j == i) k0 l)).flatten) l := by
  intro l
  induction l with
  | nil =>
      intro k0
      have hall : (List.range K).map
          (fun i => filterIdxFrom (fun j => f j == i) k0 ([] : List α)) =
          (List.range K).map (fun _ => ([] : List α)) := by
        apply List.map_congr_left
        intro i _
        rfl
      rw [hall]
      induction K with
      | zero => exact List.Perm.refl _
      | succ K ihK =>
          rw [List.range_succ, List.map_append, List.flatten_append]
          simp
  | cons p ps ih =>
      intro k0
      have h1 : (List.range K).map
          (fun i => filterIdxFrom (fun j => f j == i) k0 (p :: ps)) =
          (List.range K).map (fun i => if f k0 = i then
            p :: filterIdxFrom (fun j => f j == i) (k0 + 1) ps
            else filterIdxFrom (fun j => f j == i) (k0 + 1) ps) := by
        apply List.map_congr_left
        intro i _
        by_cases hfi : f k0 = i
        · simp [filterIdxFrom, hfi]
        · simp [filterIdxFrom, hfi]
      rw [h1]
      exact (flatten_ite_cons_perm p
        (fun i => filterIdxFrom (fun j => f j == i) (k0 + 1) ps) (f k0) K (hf k0)).trans
        ((ih (k0 + 1)).cons p)

theorem enumFrom_map_comp_fst {α β : Type} (F : ℕ → β) :
    ∀ (l : List α) (n : ℕ),
      (List.enumFrom n l).map (F ∘ Prod.fst) = (List.range' n l.length).map F := by
  intro l
  induction l with
  | nil => intro n; rfl
  | cons a l ih => intro n; simp [List.enumFrom, List.range', ih]

theorem sum_take_le_sum_take (l : List ℝ) (hpos : ∀ a ∈ l, 0 ≤ a) {i j : ℕ}
    (hij : i ≤ j) : (l.take i).sum ≤ (l.take j).sum := by
  have hsplit : l.take j = l.take i ++ (l.drop i).take (j - i) := by
    rw [← List.take_add]
    congr 1
    omega
  rw [hsplit, List.sum_append]
  have hnn : 0 ≤ ((l.drop i).take (j - i)).sum := by
    apply List.sum_nonneg
    intro a ha
    exact hpos a (((List.take_sublist _ _).trans (List.drop_sublist _ _)).subset ha)
  linarith

theorem countP_le_bins (bins : List ℝ) (x : ℝ) (i : ℕ) (hi : i ≤ bins.length)
    (hlow : ∀ m (hm : m < bins.length), m < i → bins.get ⟨m, hm⟩ ≤ x)
    (hhigh : ∀ m (hm : m < bins.length), i ≤ m → ¬ bins.get ⟨m, hm⟩ ≤ x) :
    bins.countP (fun b => decide (b ≤ x)) = i := by
  have h1 : (bins.take i).countP (fun b => decide (b ≤ x)) = i := by
    have hall : ∀ a ∈ bins.take i, (fun b => decide (b ≤ x)) a = true := by
      intro a ha
      obtain ⟨m, hm, hma⟩ := List.mem_iff_getElem.mp ha
      have hmi : m < i := by
        have := hm
        simp only [List.length_take] at this
        omega
      have hmb : m < bins.length := lt_of_lt_of_le hmi hi
      have : (bins.take i)[m] = bins.get ⟨m, hmb⟩ := by
        simp [List.getElem_take]
      rw [← hma, this]
      exact decide_eq_true (hlow m hmb hmi)
    have hlen := List.countP_eq_length.mpr hall
    rw [hlen, List.length_take]
    omega
  have h2 : (bins.drop i).countP (fun b => decide (b ≤ x)) = 0 := by
    apply List.countP_eq_zero.mpr
    intro a ha
    obtain ⟨m, hm, hma⟩ := List.mem_iff_getElem.mp ha
    have hmb : i + m < bins.length := by
      have := hm
      simp only [List.length_drop] at this
      omega
    have hget : (bins.drop i)[m] = bins.get ⟨i + m, hmb⟩ := by
      simp [List.getElem_drop]
    rw [← hma, hget]
    simpa using hhigh (i + m) hmb (by omega)
  calc bins.countP (fun b => decide (b ≤ x))
      = (bins.take i ++ bins.drop i).countP (fun b => decide (b ≤ x)) := by
        rw [List.take_append_drop]
    _ = i := by rw [List.countP_append, h1, h2]; omega

theorem cumsum_div_length (areas : List ℝ) :
    ((cumsum areas).map (fun a => a / areas.sum)).length = areas.length := by
  simp [cumsum]

theorem cumsum_div_get (areas : List ℝ) (m : ℕ)
    (hm : m < ((cumsum areas).map (fun a => a / areas.sum)).length) :
    ((cumsum areas).map (fun a => a / areas.sum)).get ⟨m, hm⟩ =
      (areas.take (m + 1)).sum / areas.sum := by
  simp [cumsum]

theorem digitize_eq_of_bounds (areas : List ℝ) (hpos : ∀ a ∈ areas, 0 < a)
    (hne : areas ≠ []) (x : ℝ) (i : ℕ) (hi : i < areas.length)
    (hlow : (areas.take i).sum ≤ x * areas.sum)
    (hhigh : x * areas.sum < (areas.take (i + 1)).sum) :
    digitize x ((cumsum areas).map (fun a => a / areas.sum)) = i := by
  have hT : 0 < areas.sum := List.sum_pos areas hpos hne
  have hnn : ∀ a ∈ areas, 0 ≤ a := fun a ha => (hpos a ha).le
  rw [digitize]
  apply countP_le_bins
  · rw [cumsum_div_length]
    omega
  · intro m hm hmi
    rw [cumsum_div_get, div_le_iff₀ hT]
    calc (areas.take (m + 1)).sum
        ≤ (areas.take i).sum := sum_take_le_sum_take areas hnn (by omega)
      _ ≤ x * areas.sum := hlow
  · intro m hm hge
    rw [cumsum_div_get, div_le_iff₀ hT]
    push_neg
    calc x * areas.sum
        < (areas.take (i + 1)).sum := hhigh
      _ ≤ (areas.take (m + 1)).sum := sum_take_le_sum_take areas hnn (by omega)

theorem digitize_exists (areas : List ℝ) (hpos : ∀ a ∈ areas, 0 < a)
    (hne : areas ≠ []) (x : ℝ) (hx0 : 0 ≤ x) (hx1 : x < 1) :
    ∃ i, i < areas.length ∧ (areas.take i).sum ≤ x * areas.sum ∧
      x * areas.sum < (areas.take (i + 1)).sum := by
  classical
  have hT : 0 < areas.sum := List.sum_pos areas hpos hne
  set S := (Finset.range (areas.length + 1)).filter
    (fun m => (areas.take m).sum ≤ x * areas.sum) with hS
  have h0S : 0 ∈ S := by
    rw [hS]
    apply Finset.mem_filter.mpr
    refine ⟨Finset.mem_range.mpr (by omega), ?_⟩
    simp only [List.take_zero, List.sum_nil]
    exact mul_nonneg hx0 hT.le
  have hSne : S.Nonempty := ⟨0, h0S⟩
  have hiS : S.max' hSne ∈ S := Finset.max'_mem S hSne
  have hile : S.max' hSne ≤ areas.length := by
    have := (Finset.mem_filter.mp hiS).1
    exact Nat.lt_succ_iff.mp (Finset.mem_range.mp this)
  have hlow : (areas.take (S.max' hSne)).sum ≤ x * areas.sum :=
    (Finset.mem_filter.mp hiS).2
  have hiK : S.max' hSne < areas.length := by
    rcases Nat.lt_or_ge (S.max' hSne) areas.length with h | h
    · exact h
    · exfalso
      have hKeq : S.max' hSne = areas.length := le_antisymm hile h
      rw [hKeq, List.take_length] at hlow
      nlinarith
  refine ⟨S.max' hSne, hiK, hlow, ?_⟩
  by_contra hcon
  push_neg at hcon
  have hmem : S.max' hSne + 1 ∈ S := by
    exact Finset.mem_filter.mpr ⟨Finset.mem_range.mpr (by omega), hcon⟩
  have := Finset.le_max' S (S.max' hSne + 1) hmem
  omega

theorem digitize_eq_iff (areas : List ℝ) (hpos : ∀ a ∈ areas, 0 < a)
    (hne : areas ≠ []) (x : ℝ) (hx0 : 0 ≤ x) (hx1 : x < 1) (i : ℕ)
    (hi : i < areas.length) :
    digitize x ((cumsum areas).map (fun a => a / areas.sum)) = i ↔
      (areas.take i).sum / areas.sum ≤ x ∧
      x < (areas.take (i + 1)).sum / areas.sum := by
  have hT : 0 < areas.sum := List.sum_pos areas hpos hne
  constructor
  · intro hd
    obtain ⟨i2, hi2, hlow, hhigh⟩ := digitize_exists areas hpos hne x hx0 hx1
    have heq := digitize_eq_of_bounds areas hpos hne x i2 hi2 hlow hhigh
    have hii : i = i2 := hd.symm.trans heq
    subst hii
    exact ⟨(div_le_iff₀ hT).mpr hlow, (lt_div_iff₀ hT).mpr hhigh⟩
  · rintro ⟨h1, h2⟩
    exact digitize_eq_of_bounds areas hpos hne x i hi
      ((div_le_iff₀ hT).mp h1) ((lt_div_iff₀ hT).mp h2)

theorem digitize_lt (areas : List ℝ) (hpos : ∀ a ∈ areas, 0 < a)
    (hne : areas ≠ []) (x : ℝ) (hx0 : 0 ≤ x) (hx1 : x < 1) :
    digitize x ((cumsum areas).map (fun a => a / areas.sum)) < areas.length := by
  obtain ⟨i, hi, hlow, hhigh⟩ := digitize_exists areas hpos hne x hx0 hx1
  rw [digitize_eq_of_bounds areas hpos hne x i hi hlow hhigh]
  exact hi

/-- C3: `MultiAperture.__call__` assigns photon `j` to sub-aperture `i`
exactly when its uniform draw falls in the cumulative-area-fraction
interval `[cumsum(A)[i-1]/sum(A), cumsum(A)[i]/sum(A))` (with the `-1`
entry read as 0), writes the assigned index into the id column,
processes each group with its own sub-aperture and stacks the groups in
sub-aperture order, preserving the per-row photon data (as a
permutation, not the original ordering) and the total batch length. -/
theorem multi_aperture_dispatch_spec (elems : List SubAperture) (u : ℕ → ℝ)
    (photons : List Photon) (hne : elems ≠ [])
    (hpos : ∀ a ∈ elems.map SubAperture.area, 0 < a)
    (hu : ∀ j, 0 ≤ u j ∧ u j < 1) :
    (∀ j i, i < elems.length →
      (multiAperid elems u j = i ↔
        ((elems.map SubAperture.area).take i).sum /
          (elems.map SubAperture.area).sum ≤ u j ∧
        u j < ((elems.map SubAperture.area).take (i + 1)).sum /
          (elems.map SubAperture.area).sum))
    ∧ (∀ j (h : j < photons.length),
        ((multiTagged elems u photons)[j]?.map Photon.aperture_id) =
          some (some (multiAperid elems u j)))
    ∧ List.Perm ((multiApertureCall elems u photons).map rowData)
        (photons.map rowData)
    ∧ (multiApertureCall elems u photons).length = photons.length := by
  have hanene : elems.map SubAperture.area ≠ [] := by
    intro hmap
    exact hne (List.map_eq_nil_iff.mp hmap)
  have hlen : (elems.map SubAperture.area).length = elems.length :=
    List.length_map _ _
  have hfj : ∀ j, multiAperid elems u j < elems.length := by
    intro j
    have h := digitize_lt (elems.map SubAperture.area) hpos hanene (u j)
      (hu j).1 (hu j).2
    rw [hlen] at h
    exact h
  have hcallmap : ∀ (s : SubAperture) (l : List Photon),
      (SubAperture.call s l).map rowData = l.map rowData := by
    intro s l
    cases s with
    | rect g u1 u2 =>
        show (flatApertureCall g none true
          (rectangleGenerateLocalXY u1 u2) l).map rowData = l.map rowData
        rw [flatApertureCall]
        exact flatApertureList_map_rowData g none true _ l 0
    | circ g u1 u2 =>
        show (flatApertureCall g.toFlatGeometry none true
          (circleGenerateLocalXY g u1 u2) l).map rowData = l.map rowData
        rw [flatApertureCall]
        exact flatApertureList_map_rowData _ none true _ l 0
  have htag : (multiTagged elems u photons).map rowData = photons.map rowData := by
    rw [multiTagged]
    exact mapIdxFrom_map
      (fun j p => { p with aperture_id := some (multiAperid elems u j) })
      rowData (fun k p => rfl) photons 0
  have hperm : List.Perm ((multiApertureCall elems u photons).map rowData)
      (photons.map rowData) := by
    rw [multiApertureCall, List.map_flatten, List.map_map]
    have hcomp : (List.map rowData ∘ fun ie : ℕ × SubAperture =>
        SubAperture.call ie.2
          (filterIdxFrom (fun j => multiAperid elems u j == ie.1) 0
            (multiTagged elems u photons))) =
        ((fun i => filterIdxFrom (fun j => multiAperid elems u j == i) 0
          ((multiTagged elems u photons).map rowData)) ∘ Prod.fst) := by
      funext ie
      show (SubAperture.call ie.2
        (filterIdxFrom (fun j => multiAperid elems u j == ie.1) 0
          (multiTagged elems u photons))).map rowData =
        filterIdxFrom (fun j => multiAperid elems u j == ie.1) 0
          ((multiTagged elems u photons).map rowData)
      rw [hcallmap, filterIdxFrom_map]
    rw [hcomp, enumFrom_map_comp_fst, ← List.range_eq_range']
    refine (partition_filterIdx_perm (fun j => multiAperid elems u j)
      elems.length hfj ((multiTagged elems u photons).map rowData) 0).trans ?_
    rw [htag]
  refine ⟨?_, ?_, hperm, ?_⟩
  · intro j i hi
    exact digitize_eq_iff (elems.map SubAperture.area) hpos hanene (u j)
      (hu j).1 (hu j).2 i (by rw [hlen]; exact hi)
  · intro j h
    rw [multiTagged, mapIdxFrom_getElem_opt, List.getElem?_eq_getElem h]
    simp
  · have h1 := hperm.length_eq
    simpa using h1

/-- Witness for C3 at a concrete instance: two equal rectangle
sub-apertures, one photon with draw `3/4`, and the output batch keeps
length one. -/
theorem multi_aperture_dispatch_witness :
    (multiApertureCall elems0 u34 [p0]).length = 1 := by
  have harea : (0 : ℝ) < 4 * norm4 g0.v_y * norm4 g0.v_z := by
    rw [norm4_g0_vy, norm4_g0_vz]
    norm_num
  have h := multi_aperture_dispatch_spec elems0 u34 [p0]
    (by simp [elems0])
    (by intro a ha
        simp only [elems0, SubAperture.area, rectangleArea, List.map_cons,
          List.map_nil, List.mem_cons, List.not_mem_nil, or_false, or_self] at ha
        rw [ha]
        exact harea)
    (by intro j
        constructor <;> norm_num [u34])
  exact h.2.2.2
